import Mathlib

/-!
Shallow embedding of `pvder/utility_functions_numba.py`, a library of
stateless numeric helpers for power-electronics simulation: RMS metrics,
PV power, 120-degree phase rotation, relative phase, dq0 reference-frame
transforms, symmetrical components and complex magnitude limiting.

Python floats are modelled by `ℝ`, Python complex numbers by `ℂ`, and the
exponential `pow(math.e, 1j*θ)` by `Complex.exp (Complex.I * θ)`.
-/

noncomputable section

namespace pvder

open Real Complex

/-- Python float modulo `x % m`: for `m > 0` this is `x - m * ⌊x / m⌋`
(the result carries the sign of the divisor). Used by
`relative_phase_calc`, whose source normalizes with `% 360`. -/
def pymod (x m : ℝ) : ℝ := x - m * (⌊x / m⌋ : ℝ)

/-- `Uunbalance_calc(ua,ub,uc)`: voltage/current unbalance,
`(max - min) / mean` of the three real inputs, with no input guard. -/
def Uunbalance_calc (ua ub uc : ℝ) : ℝ :=
  (max ua (max ub uc) - min ua (min ub uc)) / ((ua + ub + uc) / 3)

/-- `Ppv_calc(Iph,Np,Ns,Vdc_actual,Tactual,Sbase)`: diode-model PV array
power in per-unit, with the source's fixed physical constants. -/
def Ppv_calc (Iph Np Ns Vdc_actual Tactual Sbase : ℝ) : ℝ :=
  let Irs : ℝ := 1.2e-7
  let q : ℝ := 1.602e-19
  let k : ℝ := 1.38e-23
  let A : ℝ := 1.92
  let Ipv : ℝ := (Np * Iph) -
    (Np * Irs * (Real.exp ((q * Vdc_actual) / (k * Tactual * A * Ns)) - 1))
  max 0 (Ipv * Vdc_actual) / Sbase

/-- `Urms_calc(ua,ub,uc)`: RMS of the magnitudes of three phasors,
`sqrt((|ua|^2+|ub|^2+|uc|^2)/3)/sqrt 2`. -/
def Urms_calc (ua ub uc : ℂ) : ℝ :=
  Real.sqrt ((Complex.abs ua ^ 2 + Complex.abs ub ^ 2 + Complex.abs uc ^ 2) / 3) /
    Real.sqrt 2

/-- `Urms_min_calc(ua,ub,uc)`: `min(|ua|,|ub|,|uc|)/sqrt 2`. -/
def Urms_min_calc (ua ub uc : ℂ) : ℝ :=
  min (Complex.abs ua) (min (Complex.abs ub) (Complex.abs uc)) / Real.sqrt 2

/-- `Ub_calc(Ua)`: phase-A quantity shifted to phase B,
`Ua * e^(1j * (-(2/3)*pi))`. -/
def Ub_calc (Ua : ℂ) : ℂ :=
  Ua * Complex.exp (Complex.I * ((-(2 / 3) * Real.pi : ℝ) : ℂ))

/-- `Uc_calc(Ua)`: phase-A quantity shifted to phase C,
`Ua * e^(1j * ((2/3)*pi))`. -/
def Uc_calc (Ua : ℂ) : ℂ :=
  Ua * Complex.exp (Complex.I * (((2 / 3) * Real.pi : ℝ) : ℂ))

/-- `relative_phase_calc(Uph1,Uph2,DEGREES)`: relative phase between two
phasors; the phase difference is converted to degrees, reduced `% 360`,
and converted back to radians when `DEGREES` is false. -/
def relative_phase_calc (Uph1 Uph2 : ℂ) (DEGREES : Bool := false) : ℝ :=
  if DEGREES then
    pymod ((Complex.arg Uph1 - Complex.arg Uph2) * (180 / Real.pi)) 360
  else
    pymod ((Complex.arg Uph1 - Complex.arg Uph2) * (180 / Real.pi)) 360 *
      (Real.pi / 180)

/-- `abc_to_dq0(ua,ub,uc,wt)`: rotating-frame transform of three real
samples, `Us = (2/3)*(ua + ub*e^(j*2pi/3) + uc*e^(-j*2pi/3))*e^(-j*wt)`;
returns `(Us.re, Us.im, (ua+ub+uc)/3)`. -/
def abc_to_dq0 (ua ub uc : ℝ) (wt : ℝ := 2 * Real.pi) : ℝ × ℝ × ℝ :=
  let Us : ℂ := ((2 / 3 : ℝ) : ℂ) *
    ((ua : ℂ) + (ub : ℂ) * Complex.exp (Complex.I * (((2 / 3) * Real.pi : ℝ) : ℂ)) +
      (uc : ℂ) * Complex.exp (Complex.I * ((-(2 / 3) * Real.pi : ℝ) : ℂ))) *
    Complex.exp (Complex.I * ((-wt : ℝ) : ℂ))
  (Us.re, Us.im, (1 / 3) * (ua + ub + uc))

/-- `dq0_to_abc(ud,uq,u0,wt)`: inverse rotating-frame transform using the
cosine/sine basis at `wt`, `wt - 2pi/3`, `wt + 2pi/3`, offset by `u0`. -/
def dq0_to_abc (ud uq u0 : ℝ) (wt : ℝ := 2 * Real.pi) : ℝ × ℝ × ℝ :=
  (ud * Real.cos wt - uq * Real.sin wt + u0,
   ud * Real.cos (wt - (2 / 3) * Real.pi) - uq * Real.sin (wt - (2 / 3) * Real.pi) + u0,
   ud * Real.cos (wt + (2 / 3) * Real.pi) - uq * Real.sin (wt + (2 / 3) * Real.pi) + u0)

/-- `phasor_to_symmetrical(upha,uphb,uphc)`: symmetrical-component
transform with rotation operators `a = e^(j*2pi/3)`, `aa = e^(j*4pi/3)`;
returns `(u0, u1, u2)` = (zero, positive, negative) sequence. -/
def phasor_to_symmetrical (upha uphb uphc : ℂ) : ℂ × ℂ × ℂ :=
  let a : ℂ := Complex.exp (Complex.I * (((2 / 3) * Real.pi : ℝ) : ℂ))
  let aa : ℂ := Complex.exp (Complex.I * (((4 / 3) * Real.pi : ℝ) : ℂ))
  ((1 / 3) * (upha + uphb + uphc),
   (1 / 3) * (upha + a * uphb + aa * uphc),
   (1 / 3) * (upha + aa * uphb + a * uphc))

/-- `phasor_to_negative_sequence(upha,uphb,uphc)`: extracts `u2` from
`phasor_to_symmetrical` and returns
`(u2, u2*e^(j*4pi/3), u2*e^(j*2pi/3))`. -/
def phasor_to_negative_sequence (upha uphb uphc : ℂ) : ℂ × ℂ × ℂ :=
  let u2 : ℂ := (phasor_to_symmetrical upha uphb uphc).2.2
  (u2,
   u2 * Complex.exp (Complex.I * (((4 / 3) * Real.pi : ℝ) : ℂ)),
   u2 * Complex.exp (Complex.I * (((2 / 3) * Real.pi : ℝ) : ℂ)))

/-- `limit_complex(z,low_limit,high_limit)`: polar-decompose `z`, clamp
the radius into `[low_limit, high_limit]`, and rebuild with
`cmath.rect(r, phi) = r * e^(j*phi)`. -/
def limit_complex (z : ℂ) (low_limit : ℝ := -1.0) (high_limit : ℝ := 1.0) : ℂ :=
  let r : ℝ := Complex.abs z
  let phi : ℝ := Complex.arg z
  let r2 : ℝ := min (max r low_limit) high_limit
  (r2 : ℂ) * Complex.exp (Complex.I * (phi : ℂ))

/-! ### Helper lemmas -/

/-- `e^(1j*θ)` in coordinates. -/
lemma expI (θ : ℝ) :
    Complex.exp (Complex.I * (θ : ℂ)) = (Real.cos θ : ℂ) + (Real.sin θ : ℂ) * Complex.I := by
  rw [mul_comm, Complex.exp_mul_I, Complex.ofReal_cos, Complex.ofReal_sin]

lemma cos_two_pi_third : Real.cos ((2 / 3) * Real.pi) = -(1 / 2) := by
  have h : (2 / 3) * Real.pi = Real.pi - Real.pi / 3 := by ring
  rw [h, Real.cos_pi_sub, Real.cos_pi_div_three]

lemma sin_two_pi_third : Real.sin ((2 / 3) * Real.pi) = Real.sqrt 3 / 2 := by
  have h : (2 / 3) * Real.pi = Real.pi - Real.pi / 3 := by ring
  rw [h, Real.sin_pi_sub, Real.sin_pi_div_three]

lemma cos_four_pi_third : Real.cos ((4 / 3) * Real.pi) = -(1 / 2) := by
  have h : (4 / 3) * Real.pi = Real.pi + Real.pi / 3 := by ring
  rw [h, Real.cos_add, Real.cos_pi, Real.sin_pi, Real.cos_pi_div_three]
  ring

lemma sin_four_pi_third : Real.sin ((4 / 3) * Real.pi) = -(Real.sqrt 3 / 2) := by
  have h : (4 / 3) * Real.pi = Real.pi + Real.pi / 3 := by ring
  rw [h, Real.sin_add, Real.cos_pi, Real.sin_pi, Real.sin_pi_div_three]
  ring

lemma sqrt_three_mul_self : Real.sqrt 3 * Real.sqrt 3 = 3 :=
  Real.mul_self_sqrt (by norm_num)

/-- Product rule for the unit-circle exponential. -/
lemma expI_add (p q : ℝ) :
    Complex.exp (Complex.I * (p : ℂ)) * Complex.exp (Complex.I * (q : ℂ)) =
      Complex.exp (Complex.I * ((p + q : ℝ) : ℂ)) := by
  rw [← Complex.exp_add]
  congr 1
  push_cast
  ring

lemma expI_two_pi : Complex.exp (Complex.I * ((2 * Real.pi : ℝ) : ℂ)) = 1 := by
  have h : Complex.I * ((2 * Real.pi : ℝ) : ℂ) = 2 * (Real.pi : ℂ) * Complex.I := by
    push_cast
    ring
  rw [h, Complex.exp_two_pi_mul_I]

/-- The rotation operator `a = e^(j*2pi/3)` is not `1`. -/
lemma expI_two_pi_third_ne_one :
    Complex.exp (Complex.I * (((2 / 3) * Real.pi : ℝ) : ℂ)) ≠ 1 := by
  intro h
  have him : (Complex.exp (Complex.I * (((2 / 3) * Real.pi : ℝ) : ℂ))).im =
      Real.sin ((2 / 3) * Real.pi) := by
    rw [expI]
    simp only [Complex.add_im, Complex.ofReal_im, Complex.mul_im, Complex.ofReal_re,
      Complex.I_im, Complex.I_re, mul_one, mul_zero, zero_add, add_zero]
  rw [h, sin_two_pi_third] at him
  have hpos : 0 < Real.sqrt 3 := Real.sqrt_pos.mpr (by norm_num)
  simp only [Complex.one_im] at him
  linarith [him.symm]

/-- Squaring the rotation operator: `e^(j*2pi/3) * e^(j*2pi/3) = e^(j*4pi/3)`. -/
lemma expI_sq_two_pi_third :
    Complex.exp (Complex.I * (((2 / 3) * Real.pi : ℝ) : ℂ)) *
      Complex.exp (Complex.I * (((2 / 3) * Real.pi : ℝ) : ℂ)) =
      Complex.exp (Complex.I * (((4 / 3) * Real.pi : ℝ) : ℂ)) := by
  rw [expI_add]
  congr 2
  push_cast
  ring

/-- `e^(j*4pi/3) * e^(j*2pi/3) = 1` (the operator has order three). -/
lemma expI_four_pi_third_mul_two_pi_third :
    Complex.exp (Complex.I * (((4 / 3) * Real.pi : ℝ) : ℂ)) *
      Complex.exp (Complex.I * (((2 / 3) * Real.pi : ℝ) : ℂ)) = 1 := by
  rw [expI_add]
  have h : ((4 : ℝ) / 3) * Real.pi + (2 / 3) * Real.pi = 2 * Real.pi := by ring
  rw [h, expI_two_pi]

/-- The cube roots of unity sum to zero:
`1 + e^(j*2pi/3) + e^(j*4pi/3) = 0`. -/
lemma one_add_expI_add_expI :
    1 + Complex.exp (Complex.I * (((2 / 3) * Real.pi : ℝ) : ℂ)) +
      Complex.exp (Complex.I * (((4 / 3) * Real.pi : ℝ) : ℂ)) = 0 := by
  have hsq := expI_sq_two_pi_third
  have hcube := expI_four_pi_third_mul_two_pi_third
  have hfac : (Complex.exp (Complex.I * (((2 / 3) * Real.pi : ℝ) : ℂ)) - 1) *
      (1 + Complex.exp (Complex.I * (((2 / 3) * Real.pi : ℝ) : ℂ)) +
        Complex.exp (Complex.I * (((4 / 3) * Real.pi : ℝ) : ℂ))) = 0 := by
    linear_combination hsq + hcube
  rcases mul_eq_zero.mp hfac with h | h
  · exact absurd (sub_eq_zero.mp h) expI_two_pi_third_ne_one
  · exact h

/-- `e^(j*4pi/3)` equals `e^(-j*2pi/3)` (they differ by a full turn). -/
lemma expI_four_pi_third_eq_neg :
    Complex.exp (Complex.I * (((4 / 3) * Real.pi : ℝ) : ℂ)) =
      Complex.exp (Complex.I * ((-(2 / 3) * Real.pi : ℝ) : ℂ)) := by
  have h : ((4 : ℝ) / 3) * Real.pi = -(2 / 3) * Real.pi + 2 * Real.pi := by ring
  rw [h, ← expI_add, expI_two_pi, mul_one]

/-- `e^(j*4pi/3) * e^(j*4pi/3) = e^(j*2pi/3)`. -/
lemma expI_sq_four_pi_third :
    Complex.exp (Complex.I * (((4 / 3) * Real.pi : ℝ) : ℂ)) *
      Complex.exp (Complex.I * (((4 / 3) * Real.pi : ℝ) : ℂ)) =
      Complex.exp (Complex.I * (((2 / 3) * Real.pi : ℝ) : ℂ)) := by
  rw [expI_add]
  have h : ((4 : ℝ) / 3) * Real.pi + (4 / 3) * Real.pi = (2 / 3) * Real.pi + 2 * Real.pi := by
    ring
  rw [h, ← expI_add, expI_two_pi, mul_one]

/-! ### Claim theorems -/

/-- C10: rotating a phasor to phase B with `Ub_calc` and then applying
`Uc_calc` returns the original phasor: the two 120-degree phase shifts
are mutual inverses in exact arithmetic. -/
theorem Uc_calc_Ub_calc_inverse (Ua : ℂ) : Uc_calc (Ub_calc Ua) = Ua := by
  unfold Uc_calc Ub_calc
  rw [mul_assoc, ← Complex.exp_add]
  have h : Complex.I * ((-(2 / 3) * Real.pi : ℝ) : ℂ) +
      Complex.I * (((2 / 3) * Real.pi : ℝ) : ℂ) = 0 := by
    push_cast
    ring
  rw [h, Complex.exp_zero, mul_one]

/-- C8: for every real input triple and every `wt`, the zero-sequence
output of `abc_to_dq0` coincides with the zero-sequence component of
`phasor_to_symmetrical`: both are `(ua+ub+uc)/3`, independently of `wt`. -/
theorem abc_to_dq0_u0_eq_symmetrical_u0 (ua ub uc wt : ℝ) :
    ((abc_to_dq0 ua ub uc wt).2.2 : ℂ) =
      (phasor_to_symmetrical (ua : ℂ) (ub : ℂ) (uc : ℂ)).1 ∧
    (abc_to_dq0 ua ub uc wt).2.2 = (1 / 3) * (ua + ub + uc) := by
  constructor
  · simp only [abc_to_dq0, phasor_to_symmetrical]
    push_cast
    ring
  · simp only [abc_to_dq0]

/-- C5: on the balanced three-phase set `(a, a*e^(-j*2pi/3), a*e^(j*2pi/3))`,
`phasor_to_symmetrical` returns exactly `(0, a, 0)`: zero- and
negative-sequence components vanish and the positive-sequence component
is `a`. -/
theorem phasor_to_symmetrical_balanced (a : ℂ) :
    phasor_to_symmetrical a
      (a * Complex.exp (Complex.I * ((-(2 / 3) * Real.pi : ℝ) : ℂ)))
      (a * Complex.exp (Complex.I * (((2 / 3) * Real.pi : ℝ) : ℂ))) = (0, a, 0) := by
  have h0 := one_add_expI_add_expI
  have h2 := expI_four_pi_third_mul_two_pi_third
  have h4 := expI_sq_two_pi_third
  have h5 := expI_four_pi_third_eq_neg
  have h1 : Complex.exp (Complex.I * (((2 / 3) * Real.pi : ℝ) : ℂ)) *
      Complex.exp (Complex.I * ((-(2 / 3) * Real.pi : ℝ) : ℂ)) = 1 := by
    rw [expI_add]
    have h : ((2 : ℝ) / 3) * Real.pi + -(2 / 3) * Real.pi = 0 := by ring
    rw [h]
    simp
  have h3 : Complex.exp (Complex.I * (((4 / 3) * Real.pi : ℝ) : ℂ)) *
      Complex.exp (Complex.I * ((-(2 / 3) * Real.pi : ℝ) : ℂ)) =
      Complex.exp (Complex.I * (((2 / 3) * Real.pi : ℝ) : ℂ)) := by
    rw [expI_add]
    congr 2
    push_cast
    ring
  simp only [phasor_to_symmetrical, Prod.mk.injEq]
  refine ⟨?_, ?_, ?_⟩
  · linear_combination (a / 3) * h0 - (a / 3) * h5
  · linear_combination (a / 3) * h1 + (a / 3) * h2
  · linear_combination (a / 3) * h3 + (a / 3) * h4 + (a / 3) * h0

/-- C2: the input `(1, e^(j*2pi/3), e^(j*4pi/3))` is a pure
negative-sequence set (its symmetrical components are `(0, 0, 1)`), yet
`phasor_to_negative_sequence` returns `(1, e^(j*4pi/3), e^(j*2pi/3))`,
whose symmetrical components are `(0, 1, 0)`: the reconstructed triple
carries its component in the positive-sequence slot, not the
negative-sequence slot as the claim requires. -/
theorem phasor_to_negative_sequence_wrong_slot :
    phasor_to_symmetrical 1
        (Complex.exp (Complex.I * (((2 / 3) * Real.pi : ℝ) : ℂ)))
        (Complex.exp (Complex.I * (((4 / 3) * Real.pi : ℝ) : ℂ))) = (0, 0, 1) ∧
    phasor_to_negative_sequence 1
        (Complex.exp (Complex.I * (((2 / 3) * Real.pi : ℝ) : ℂ)))
        (Complex.exp (Complex.I * (((4 / 3) * Real.pi : ℝ) : ℂ))) =
      (1, Complex.exp (Complex.I * (((4 / 3) * Real.pi : ℝ) : ℂ)),
        Complex.exp (Complex.I * (((2 / 3) * Real.pi : ℝ) : ℂ))) ∧
    phasor_to_symmetrical 1
        (Complex.exp (Complex.I * (((4 / 3) * Real.pi : ℝ) : ℂ)))
        (Complex.exp (Complex.I * (((2 / 3) * Real.pi : ℝ) : ℂ))) = (0, 1, 0) := by
  have h0 := one_add_expI_add_expI
  have h2 := expI_four_pi_third_mul_two_pi_third
  have h4 := expI_sq_two_pi_third
  have h6 := expI_sq_four_pi_third
  refine ⟨?_, ?_, ?_⟩
  · simp only [phasor_to_symmetrical, Prod.mk.injEq]
    refine ⟨?_, ?_, ?_⟩
    · linear_combination (1 / 3 : ℂ) * h0
    · linear_combination (1 / 3 : ℂ) * h4 + (1 / 3 : ℂ) * h6 + (1 / 3 : ℂ) * h0
    · linear_combination (2 / 3 : ℂ) * h2
  · simp only [phasor_to_negative_sequence, phasor_to_symmetrical, Prod.mk.injEq]
    refine ⟨?_, ?_, ?_⟩
    · linear_combination (2 / 3 : ℂ) * h2
    · linear_combination
        ((2 / 3 : ℂ) * Complex.exp (Complex.I * (((4 / 3) * Real.pi : ℝ) : ℂ))) * h2
    · linear_combination
        ((2 / 3 : ℂ) * Complex.exp (Complex.I * (((2 / 3) * Real.pi : ℝ) : ℂ))) * h2
  · simp only [phasor_to_symmetrical, Prod.mk.injEq]
    refine ⟨?_, ?_, ?_⟩
    · linear_combination (1 / 3 : ℂ) * h0
    · linear_combination (2 / 3 : ℂ) * h2
    · linear_combination (1 / 3 : ℂ) * h6 + (1 / 3 : ℂ) * h4 + (1 / 3 : ℂ) * h0

lemma pymod_nonneg (x : ℝ) {m : ℝ} (hm : 0 < m) : 0 ≤ pymod x m := by
  have h := Int.sub_floor_div_mul_nonneg x hm
  unfold pymod
  linarith [h]

lemma pymod_lt (x : ℝ) {m : ℝ} (hm : 0 < m) : pymod x m < m := by
  have h := Int.sub_floor_div_mul_lt x hm
  unfold pymod
  linarith [h]

/-- C9: the minimum-magnitude RMS never exceeds the mean-square RMS:
`Urms_min_calc ≤ Urms_calc` for every phasor triple. -/
theorem Urms_min_calc_le_Urms_calc (ua ub uc : ℂ) :
    Urms_min_calc ua ub uc ≤ Urms_calc ua ub uc := by
  unfold Urms_min_calc Urms_calc
  have hx : 0 ≤ Complex.abs ua := Complex.abs.nonneg ua
  have hy : 0 ≤ Complex.abs ub := Complex.abs.nonneg ub
  have hz : 0 ≤ Complex.abs uc := Complex.abs.nonneg uc
  have hm0 : 0 ≤ min (Complex.abs ua) (min (Complex.abs ub) (Complex.abs uc)) :=
    le_min hx (le_min hy hz)
  have h1 : min (Complex.abs ua) (min (Complex.abs ub) (Complex.abs uc)) ≤
      Complex.abs ua := min_le_left _ _
  have h2 : min (Complex.abs ua) (min (Complex.abs ub) (Complex.abs uc)) ≤
      Complex.abs ub := le_trans (min_le_right _ _) (min_le_left _ _)
  have h3 : min (Complex.abs ua) (min (Complex.abs ub) (Complex.abs uc)) ≤
      Complex.abs uc := le_trans (min_le_right _ _) (min_le_right _ _)
  have hkey : min (Complex.abs ua) (min (Complex.abs ub) (Complex.abs uc)) ≤
      Real.sqrt ((Complex.abs ua ^ 2 + Complex.abs ub ^ 2 + Complex.abs uc ^ 2) / 3) := by
    rw [Real.le_sqrt hm0 (by positivity)]
    nlinarith [h1, h2, h3, hm0]
  gcongr

/-- C3: with `Sbase` nonzero, `Ppv_calc` returns
`max(0, Ipv*Vdc)/Sbase` for the diode-model current `Ipv` with the
source's fixed constants; the result is nonnegative whenever
`Sbase > 0`, and at `Vdc = 0` the result is `0`. -/
theorem Ppv_calc_spec (Iph Np Ns Vdc_actual Tactual Sbase : ℝ) (hS : Sbase ≠ 0) :
    Ppv_calc Iph Np Ns Vdc_actual Tactual Sbase =
      max 0 ((Np * Iph -
          Np * 1.2e-7 *
            (Real.exp ((1.602e-19 * Vdc_actual) / (1.38e-23 * Tactual * 1.92 * Ns)) - 1)) *
        Vdc_actual) / Sbase ∧
    (0 < Sbase → 0 ≤ Ppv_calc Iph Np Ns Vdc_actual Tactual Sbase) ∧
    Ppv_calc Iph Np Ns 0 Tactual Sbase = 0 := by
  refine ⟨?_, ?_, ?_⟩
  · simp only [Ppv_calc]
  · intro hpos
    simp only [Ppv_calc]
    exact div_nonneg (le_max_left 0 _) hpos.le
  · simp [Ppv_calc]

/-- Witness for `Ppv_calc_spec` at `Iph=1, Np=1, Ns=1, Vdc=0, T=300,
Sbase=1`. -/
theorem Ppv_calc_spec_witness : (1 : ℝ) ≠ 0 ∧ Ppv_calc 1 1 1 0 300 1 = 0 :=
  ⟨one_ne_zero, (Ppv_calc_spec 1 1 1 0 300 1 one_ne_zero).2.2⟩

/-- C4: for nonzero phasors, `relative_phase_calc` in degree mode is the
degree-valued phase difference reduced modulo 360, lying in `[0, 360)`;
in radian mode it is that degree-normalized value converted back to
radians, lying in `[0, 2*pi)`; and when the inputs coincide the result
is `0` in both modes. -/
theorem relative_phase_calc_spec (Uph1 Uph2 : ℂ) (h1 : Uph1 ≠ 0) (h2 : Uph2 ≠ 0) :
    (relative_phase_calc Uph1 Uph2 true =
        pymod ((Complex.arg Uph1 - Complex.arg Uph2) * (180 / Real.pi)) 360 ∧
      0 ≤ relative_phase_calc Uph1 Uph2 true ∧
      relative_phase_calc Uph1 Uph2 true < 360) ∧
    (relative_phase_calc Uph1 Uph2 false =
        pymod ((Complex.arg Uph1 - Complex.arg Uph2) * (180 / Real.pi)) 360 *
          (Real.pi / 180) ∧
      0 ≤ relative_phase_calc Uph1 Uph2 false ∧
      relative_phase_calc Uph1 Uph2 false < 2 * Real.pi) ∧
    (Uph1 = Uph2 →
      relative_phase_calc Uph1 Uph2 true = 0 ∧
        relative_phase_calc Uph1 Uph2 false = 0) := by
  have hb0 : 0 ≤ pymod ((Complex.arg Uph1 - Complex.arg Uph2) * (180 / Real.pi)) 360 :=
    pymod_nonneg _ (by norm_num)
  have hb1 : pymod ((Complex.arg Uph1 - Complex.arg Uph2) * (180 / Real.pi)) 360 < 360 :=
    pymod_lt _ (by norm_num)
  have hpi := Real.pi_pos
  refine ⟨⟨?_, ?_, ?_⟩, ⟨?_, ?_, ?_⟩, ?_⟩
  · simp [relative_phase_calc]
  · simpa [relative_phase_calc] using hb0
  · simpa [relative_phase_calc] using hb1
  · simp [relative_phase_calc]
  · simp only [relative_phase_calc, Bool.false_eq_true, if_false]
    exact mul_nonneg hb0 (by positivity)
  · simp only [relative_phase_calc, Bool.false_eq_true, if_false]
    nlinarith [hb1, hb0, hpi]
  · intro heq
    subst heq
    constructor
    · simp [relative_phase_calc, pymod]
    · simp [relative_phase_calc, pymod]

/-- Witness for `relative_phase_calc_spec` at `Uph1 = Uph2 = 1`. -/
theorem relative_phase_calc_spec_witness :
    (1 : ℂ) ≠ 0 ∧ relative_phase_calc 1 1 true = 0 ∧ relative_phase_calc 1 1 false = 0 :=
  ⟨one_ne_zero, (relative_phase_calc_spec 1 1 one_ne_zero one_ne_zero).2.2 rfl⟩

lemma cos_neg_two_pi_third : Real.cos (-(2 / 3) * Real.pi) = -(1 / 2) := by
  have h : (-(2 / 3) * Real.pi : ℝ) = -((2 / 3) * Real.pi) := by ring
  rw [h, Real.cos_neg, cos_two_pi_third]

lemma sin_neg_two_pi_third : Real.sin (-(2 / 3) * Real.pi) = -(Real.sqrt 3 / 2) := by
  have h : (-(2 / 3) * Real.pi : ℝ) = -((2 / 3) * Real.pi) := by ring
  rw [h, Real.sin_neg, sin_two_pi_third]

/-- C1: `abc_to_dq0` applied with the same `wt` to the three phase
values produced by `dq0_to_abc ud uq u0 wt` recovers `(ud, uq, u0)`
exactly: the two transforms are algebraic inverses for matching `wt`. -/
theorem abc_to_dq0_dq0_to_abc_roundtrip (ud uq u0 wt : ℝ) :
    abc_to_dq0 (dq0_to_abc ud uq u0 wt).1 (dq0_to_abc ud uq u0 wt).2.1
      (dq0_to_abc ud uq u0 wt).2.2 wt = (ud, uq, u0) := by
  have h3 := sqrt_three_mul_self
  have hpy := Real.sin_sq_add_cos_sq wt
  simp only [dq0_to_abc, abc_to_dq0, Prod.mk.injEq]
  rw [Real.cos_sub, Real.sin_sub, Real.cos_add, Real.sin_add,
    cos_two_pi_third, sin_two_pi_third]
  simp only [expI, cos_two_pi_third, sin_two_pi_third, cos_neg_two_pi_third,
    sin_neg_two_pi_third, Real.cos_neg, Real.sin_neg]
  simp only [Complex.add_re, Complex.add_im, Complex.mul_re, Complex.mul_im,
    Complex.ofReal_re, Complex.ofReal_im, Complex.I_re, Complex.I_im,
    mul_zero, zero_mul, mul_one, one_mul, sub_zero, zero_sub, add_zero,
    zero_add, neg_neg, neg_zero]
  refine ⟨?_, ?_, ?_⟩
  · linear_combination
      ((ud * Real.sin wt ^ 2 + uq * Real.cos wt * Real.sin wt) / 3) * h3 + ud * hpy
  · linear_combination
      ((ud * Real.sin wt * Real.cos wt + uq * Real.cos wt ^ 2) / 3) * h3 + uq * hpy
  · ring

lemma abs_expI (θ : ℝ) : Complex.abs (Complex.exp (Complex.I * (θ : ℂ))) = 1 := by
  rw [mul_comm]
  exact Complex.abs_exp_ofReal_mul_I θ

lemma arg_expI_arg (z : ℂ) :
    Complex.arg (Complex.exp (Complex.I * ((Complex.arg z : ℝ) : ℂ))) = Complex.arg z := by
  rw [expI, Complex.ofReal_cos, Complex.ofReal_sin]
  exact Complex.arg_cos_add_sin_mul_I (Complex.arg_mem_Ioc z)

/-- C6 counterexample: at `z = -1`, `low = -1`, `high = 0` the claim's
bounds (`low ≤ high`, `high ≥ 0`) hold, but `limit_complex` collapses the
input to `0`, whose phase angle `0` differs from the phase angle `pi`
of `z`: the phase is not preserved when `high = 0`. -/
theorem limit_complex_high_zero_counterexample :
    ((-1 : ℝ) ≤ 0 ∧ (0 : ℝ) ≤ 0) ∧
      Complex.arg (limit_complex (-1) (-1) 0) ≠ Complex.arg (-1) := by
  refine ⟨⟨by norm_num, le_refl 0⟩, ?_⟩
  have hval : limit_complex (-1) (-1) 0 = 0 := by
    simp only [limit_complex]
    have h1 : Complex.abs (-1 : ℂ) = 1 := by simp
    rw [h1]
    norm_num
  rw [hval, Complex.arg_zero, Complex.arg_neg_one]
  exact fun h => Real.pi_ne_zero h.symm

/-- C6 (amended): for `low ≤ high` with `high > 0`, `limit_complex`
returns a value whose magnitude is `|z|` clamped into `[low, high]` and
whose phase angle equals the phase angle of `z`; moreover a nonpositive
lower bound (such as the default `-1`) never changes the magnitude. -/
theorem limit_complex_spec (z : ℂ) (low_limit high_limit : ℝ)
    (hlh : low_limit ≤ high_limit) (hh : 0 < high_limit) :
    Complex.abs (limit_complex z low_limit high_limit) =
      min (max (Complex.abs z) low_limit) high_limit ∧
    Complex.arg (limit_complex z low_limit high_limit) = Complex.arg z ∧
    (low_limit ≤ 0 →
      Complex.abs (limit_complex z low_limit high_limit) =
        min (Complex.abs z) high_limit) := by
  have hr2 : 0 ≤ min (max (Complex.abs z) low_limit) high_limit :=
    le_min (le_trans (Complex.abs.nonneg z) (le_max_left _ _)) hh.le
  have hmag : Complex.abs (limit_complex z low_limit high_limit) =
      min (max (Complex.abs z) low_limit) high_limit := by
    simp only [limit_complex]
    rw [map_mul, abs_expI, mul_one, Complex.abs_of_nonneg hr2]
  refine ⟨hmag, ?_, ?_⟩
  · by_cases hz : z = 0
    · subst hz
      simp only [limit_complex, map_zero, Complex.arg_zero]
      have h0 : Complex.exp (Complex.I * ((0 : ℝ) : ℂ)) = 1 := by simp
      rw [h0, mul_one]
      exact Complex.arg_ofReal_of_nonneg (by positivity)
    · have habs : 0 < Complex.abs z := Complex.abs.pos hz
      have hpos : 0 < min (max (Complex.abs z) low_limit) high_limit :=
        lt_min (lt_of_lt_of_le habs (le_max_left _ _)) hh
      simp only [limit_complex]
      rw [Complex.arg_real_mul _ hpos, arg_expI_arg]
  · intro hlow
    rw [hmag, max_eq_left (le_trans hlow (Complex.abs.nonneg z))]

/-- Witness for `limit_complex_spec` at the spec's example
`limit_complex(2*e^(j*pi/4), -1, 1)`: magnitude `1` at angle `pi/4`. -/
theorem limit_complex_spec_witness :
    Complex.abs (limit_complex ((2 : ℂ) *
        Complex.exp (Complex.I * ((Real.pi / 4 : ℝ) : ℂ))) (-1) 1) = 1 ∧
    Complex.arg (limit_complex ((2 : ℂ) *
        Complex.exp (Complex.I * ((Real.pi / 4 : ℝ) : ℂ))) (-1) 1) = Real.pi / 4 := by
  have hpi := Real.pi_pos
  have habs : Complex.abs ((2 : ℂ) *
      Complex.exp (Complex.I * ((Real.pi / 4 : ℝ) : ℂ))) = 2 := by
    rw [map_mul, abs_expI, mul_one]
    simp
  have harg : Complex.arg ((2 : ℂ) *
      Complex.exp (Complex.I * ((Real.pi / 4 : ℝ) : ℂ))) = Real.pi / 4 := by
    have h2 : ((2 : ℂ)) = ((2 : ℝ) : ℂ) := by norm_num
    rw [h2, Complex.arg_real_mul _ (by norm_num : (0 : ℝ) < 2), expI,
      Complex.ofReal_cos, Complex.ofReal_sin]
    exact Complex.arg_cos_add_sin_mul_I ⟨by linarith, by linarith⟩
  have h := limit_complex_spec ((2 : ℂ) *
      Complex.exp (Complex.I * ((Real.pi / 4 : ℝ) : ℂ))) (-1) 1
    (by norm_num) (by norm_num)
  constructor
  · rw [h.1, habs]
    norm_num
  · rw [h.2.1, harg]

end pvder
